import Mathlib

/-!
Verification development for the cache engine in `src/advanced-lru-cache.py`.

The file embeds, in order:
  * the key normalizer `make_hashable` (source lines 13-24), over an explicit
    universe of Python values, together with Python's partial `<` comparison
    (which raises `TypeError` on cross-type comparisons, modelled as
    `Except.error`) and the stable sort used by `sorted`;
  * the key derivation `_make_key` (lines 60-61);
  * the TTL predicate `_expired` (lines 63-64) and the synchronous `call`
    path (lines 70-92), as explicit state passing over a `CacheState`;
  * a small-step cooperative-scheduling model of `call_async`
    (lines 98-137), used to analyse the async single-flight path.

Modelling conventions: Python numbers (bool, int, float) are embedded by
their numeric value on one numeric line — faithful to Python, where
`True == 1 == 1.0`, `hash(True) == hash(1) == hash(1.0)`, booleans and
ints compare with floats by value, and cache keys are compared by
`==`/`hash`, so this quotient is exact for key identity.  The numeric line
is the extended rationals plus NaN (`Flt`): every IEEE double is a
rational, comparison of non-NaN doubles coincides with the rational order,
and NaN compares `False` under `<`, `>` and `==` against every value
(object identity, Python's only way to make a NaN compare equal to
itself, is outside the embedding).  Monotonic clock readings are integers
passed explicitly at each lock acquisition.
-/

/-- The value line of Python numbers as seen by `==` and `<`: booleans and
integers embed as `finite` rationals, floats are finite rationals,
infinities, or NaN.  NaN is the one point where Python's numeric
comparison is not an order: `nan < x`, `x < nan` and `nan == x` are all
`False`, for every x including NaN itself. -/
inductive Flt : Type where
  | finite (q : ℚ)
  | inf
  | neginf
  | nan
  deriving DecidableEq

/-- Outcome of a successful (non-raising) Python comparison: less, equal,
greater, or unordered — `un` is produced exactly by NaN operands, where
`<`, `>` and `==` all return `False`. -/
inductive Cmp4 : Type where
  | lt
  | eq
  | gt
  | un
  deriving DecidableEq

/-- Outcome of the comparison with the arguments exchanged. -/
def Cmp4.swap4 : Cmp4 → Cmp4
  | .lt => .gt
  | .eq => .eq
  | .gt => .lt
  | .un => .un

/-- A total (ordered-type) comparison outcome, viewed in `Cmp4`. -/
def oc : Ordering → Cmp4
  | .lt => .lt
  | .eq => .eq
  | .gt => .gt

/-- Universe of hashable values produced by `make_hashable`: primitive
scalars and (possibly nested) tuples.  Python `bool`, `int` and `float`
results are embedded as one numeric constructor `hnum` carrying their
value on the `Flt` line (see the header note), and the `repr` fallback
produces a string. -/
inductive HVal : Type where
  | hstr (s : String)
  | hbytes (b : List Nat)
  | hnum (x : Flt)
  | hnone
  | htuple (xs : List HVal)

theorem HVal.sizeOf_lt_of_mem {x : HVal} {xs : List HVal} (h : x ∈ xs) :
    sizeOf x < sizeOf xs := by
  induction h with
  | head => simp; omega
  | tail b _ ih => simp; omega

/-- Structural induction for the nested inductive `HVal`, with a
membership-based hypothesis for tuples. -/
theorem HVal.induct (P : HVal → Prop)
    (h1 : ∀ s, P (HVal.hstr s)) (h2 : ∀ b, P (HVal.hbytes b))
    (h3 : ∀ x, P (HVal.hnum x)) (h4 : P HVal.hnone)
    (h5 : ∀ xs, (∀ x, x ∈ xs → P x) → P (HVal.htuple xs)) : ∀ v, P v
  | .hstr s => h1 s
  | .hbytes b => h2 b
  | .hnum x => h3 x
  | .hnone => h4
  | .htuple xs => h5 xs (fun x hx => HVal.induct P h1 h2 h3 h4 h5 x)
termination_by v => sizeOf v
decreasing_by
  have := HVal.sizeOf_lt_of_mem hx
  simp
  omega

mutual

/-- Boolean equality on `HVal`, used to derive decidable equality (the
derive handler does not support this nested inductive). -/
def hvalBeq : HVal → HVal → Bool
  | .hstr a, .hstr b => a == b
  | .hbytes a, .hbytes b => a == b
  | .hnum a, .hnum b => a == b
  | .hnone, .hnone => true
  | .htuple xs, .htuple ys => hlistBeq xs ys
  | _, _ => false

/-- Boolean equality on lists of `HVal`. -/
def hlistBeq : List HVal → List HVal → Bool
  | [], [] => true
  | x :: xs, y :: ys => hvalBeq x y && hlistBeq xs ys
  | _, _ => false

end

theorem hlistBeq_iff_of (xs : List HVal)
    (ih : ∀ x, x ∈ xs → ∀ b, hvalBeq x b = true ↔ x = b) :
    ∀ ys, hlistBeq xs ys = true ↔ xs = ys := by
  induction xs with
  | nil => intro ys; cases ys <;> simp [hlistBeq]
  | cons x xs ihl =>
    intro ys
    cases ys with
    | nil => simp [hlistBeq]
    | cons y ys =>
      have hx := ih x (by simp) y
      have hrest := ihl (fun z hz => ih z (by simp [hz])) ys
      simp [hlistBeq, hx, hrest]

theorem hvalBeq_iff : ∀ a b : HVal, hvalBeq a b = true ↔ a = b := by
  intro a
  induction a using HVal.induct with
  | h1 s => intro b; cases b <;> simp [hvalBeq]
  | h2 bs => intro b; cases b <;> simp [hvalBeq]
  | h3 n => intro b; cases b <;> simp [hvalBeq]
  | h4 => intro b; cases b <;> simp [hvalBeq]
  | h5 xs ih =>
    intro b
    cases b <;> simp [hvalBeq]
    exact hlistBeq_iff_of xs ih _

instance : DecidableEq HVal := fun a b => decidable_of_iff _ (hvalBeq_iff a b)

instance {ε α : Type} [DecidableEq ε] [DecidableEq α] : DecidableEq (Except ε α) :=
  fun a b =>
  match a, b with
  | .ok x, .ok y => if h : x = y then .isTrue (by rw [h]) else .isFalse (by simp [h])
  | .error x, .error y =>
    if h : x = y then .isTrue (by rw [h]) else .isFalse (by simp [h])
  | .ok _, .error _ => .isFalse (by simp)
  | .error _, .ok _ => .isFalse (by simp)

/-- Universe of Python values accepted by `make_hashable` (source line 13):
primitives, tuples, lists, sets, frozensets, dicts, objects exposing
`__dict__` (their field mapping), and a fallback for anything else, carrying
its `repr` string. -/
inductive PyVal : Type where
  | pstr (s : String)
  | pbytes (b : List Nat)
  | pint (n : Int)
  | pfloat (x : Flt)
  | pbool (b : Bool)
  | pnone
  | ptuple (xs : List PyVal)
  | plist (xs : List PyVal)
  | pset (xs : List PyVal)
  | pfrozenset (xs : List PyVal)
  | pdict (es : List (PyVal × PyVal))
  | pobj (fs : List (String × PyVal))
  | pfallback (r : String)

/-- Three-way comparison derived from a linear order, as Python's `<`
induces on values of one comparable type. -/
def ordCmp {β : Type} [LinearOrder β] (a b : β) : Ordering :=
  if a < b then .lt else if b < a then .gt else .eq

/-- Lexicographic comparison of byte strings, as Python compares `bytes`. -/
def bytesCmp : List Nat → List Nat → Ordering
  | [], [] => .eq
  | [], _ :: _ => .lt
  | _ :: _, [] => .gt
  | a :: as, b :: bs =>
    match ordCmp a b with
    | .eq => bytesCmp as bs
    | o => o

/-- Python string comparison: lexicographic on code points. -/
def strCmp (a b : String) : Ordering :=
  bytesCmp (a.data.map Char.toNat) (b.data.map Char.toNat)

/-- Python numeric comparison on the `Flt` line: a NaN operand makes
every comparison return `False` (outcome `un`); everything else is the
order of the extended rationals. -/
def fltCmp : Flt → Flt → Cmp4
  | .nan, _ => .un
  | _, .nan => .un
  | .finite a, .finite b => oc (ordCmp a b)
  | .finite _, .inf => .lt
  | .finite _, .neginf => .gt
  | .inf, .finite _ => .gt
  | .inf, .inf => .eq
  | .inf, .neginf => .gt
  | .neginf, .finite _ => .lt
  | .neginf, .inf => .lt
  | .neginf, .neginf => .eq

mutual

/-- Python's comparison on normalized values, partial two ways: a
cross-type comparison (other than numeric with numeric) raises
`TypeError`, modelled as `Except.error ()`, and a non-raising comparison
can still be unordered (`Cmp4.un`) when a NaN is involved.  Numbers
compare with numbers by value (bool, int and float are one numeric line in
Python), strings with strings, bytes with bytes, tuples with tuples
(lexicographically).  Note `None < None` raises in Python, so `hnone` is
incomparable even with itself. -/
def pyCmp : HVal → HVal → Except Unit Cmp4
  | .hnum a, .hnum b => .ok (fltCmp a b)
  | .hstr a, .hstr b => .ok (oc (strCmp a b))
  | .hbytes a, .hbytes b => .ok (oc (bytesCmp a b))
  | .htuple xs, .htuple ys => tupCmp xs ys
  | _, _ => .error ()

/-- Python tuple comparison: scan for the first index whose elements are
not equal (Python `==`, which never raises here), then compare those
elements with `<`; if one tuple is a prefix of the other, the shorter is
smaller.  The `==` scan is modelled by structural equality on `HVal`,
which coincides with Python `==` on every value except distinct NaN
objects (Python's identity fast path is the one way a NaN compares equal,
and object identity is outside the embedding); the theorems that depend on
tuple ordering quantify over NaN-free values. -/
def tupCmp : List HVal → List HVal → Except Unit Cmp4
  | [], [] => .ok .eq
  | [], _ :: _ => .ok .lt
  | _ :: _, [] => .ok .gt
  | x :: xs, y :: ys => if x = y then tupCmp xs ys else pyCmp x y

end

/-- Stable insertion of an element into a sorted list under the partial
comparison `pyCmp`, propagating a comparison failure.  Together with
`sortE` this models Python's stable `sorted`, which compares with `<`
only: on inputs whose compared elements are pairwise order-comparable the
result is the unique stable sort; a cross-type comparison raises; and an
unordered (NaN) comparison — `<` returning `False` both ways — leaves the
inserted element in place, making the output order-dependent exactly as
CPython's sort is on NaN inputs (the two implementations agree on the
two-element lists this file evaluates). -/
def insertE (x : HVal) : List HVal → Except Unit (List HVal)
  | [] => .ok [x]
  | y :: ys =>
    match pyCmp x y with
    | .error e => .error e
    | .ok .gt =>
      match insertE x ys with
      | .error e => .error e
      | .ok r => .ok (y :: r)
    | .ok _ => .ok (x :: y :: ys)

/-- Model of Python's `sorted` over the partial comparison `pyCmp`. -/
def sortE : List HVal → Except Unit (List HVal)
  | [] => .ok []
  | x :: xs =>
    match sortE xs with
    | .error e => .error e
    | .ok r => insertE x r

/-- Shared tail of the collection branches of `make_hashable`:
`tuple(sorted(...))` over already-normalized elements. -/
def sortedTuple (hs : List HVal) : Except Unit HVal :=
  match sortE hs with
  | .error e => .error e
  | .ok s => .ok (.htuple s)

mutual

/-- Shallow embedding of `make_hashable` (source lines 13-24).
Primitives map to themselves (booleans, integers and floats to their value
on the numeric line, see the header note); tuples map elementwise; lists,
sets and frozensets map to the
sorted tuple of normalized elements; dicts map to the sorted tuple of
normalized `(key, value)` pair tuples; objects with `__dict__` are
normalized via their field mapping (`make_hashable(vars(obj))`, inlined:
the field names are strings, which normalize to themselves); anything else
falls back to its `repr` string. -/
def make_hashable : PyVal → Except Unit HVal
  | .pstr s => .ok (.hstr s)
  | .pbytes b => .ok (.hbytes b)
  | .pint n => .ok (.hnum (.finite (n : ℚ)))
  | .pfloat x => .ok (.hnum x)
  | .pbool b => .ok (.hnum (.finite (if b then 1 else 0)))
  | .pnone => .ok .hnone
  | .ptuple xs =>
    match mhList xs with
    | .error e => .error e
    | .ok hs => .ok (.htuple hs)
  | .plist xs =>
    match mhList xs with
    | .error e => .error e
    | .ok hs => sortedTuple hs
  | .pset xs =>
    match mhList xs with
    | .error e => .error e
    | .ok hs => sortedTuple hs
  | .pfrozenset xs =>
    match mhList xs with
    | .error e => .error e
    | .ok hs => sortedTuple hs
  | .pdict es =>
    match mhPairs es with
    | .error e => .error e
    | .ok hs => sortedTuple hs
  | .pobj fs =>
    match mhFields fs with
    | .error e => .error e
    | .ok hs => sortedTuple hs
  | .pfallback r => .ok (.hstr r)

/-- Elementwise normalization of a list of values, propagating the first
failure, as the generator expressions on source lines 17-19 do. -/
def mhList : List PyVal → Except Unit (List HVal)
  | [] => .ok []
  | v :: vs =>
    match make_hashable v with
    | .error e => .error e
    | .ok h =>
      match mhList vs with
      | .error e => .error e
      | .ok t => .ok (h :: t)

/-- Normalization of dict items to `(make_hashable(k), make_hashable(v))`
pair tuples (source line 21). -/
def mhPairs : List (PyVal × PyVal) → Except Unit (List HVal)
  | [] => .ok []
  | (k, v) :: es =>
    match make_hashable k with
    | .error e => .error e
    | .ok hk =>
      match make_hashable v with
      | .error e => .error e
      | .ok hv =>
        match mhPairs es with
        | .error e => .error e
        | .ok t => .ok (.htuple [hk, hv] :: t)

/-- Normalization of an object's field mapping: `vars(obj)` is the dict
from field name (a string) to field value, so each item normalizes to the
pair tuple of the name and the normalized value (source lines 22-23). -/
def mhFields : List (String × PyVal) → Except Unit (List HVal)
  | [] => .ok []
  | (n, v) :: fs =>
    match make_hashable v with
    | .error e => .error e
    | .ok hv =>
      match mhFields fs with
      | .error e => .error e
      | .ok t => .ok (.htuple [.hstr n, hv] :: t)

end

/-- Shallow embedding of `AdvancedLRUCache._make_key` (source lines 60-61):
the pair of the normalized positional-argument tuple and the normalized
keyword-argument dict. -/
def _make_key (args : List PyVal) (kwargs : List (PyVal × PyVal)) :
    Except Unit (HVal × HVal) :=
  match make_hashable (.ptuple args), make_hashable (.pdict kwargs) with
  | .ok ha, .ok hk => .ok (ha, hk)
  | .error e, _ => .error e
  | _, .error e => .error e

theorem ordCmp_lt_iff {β : Type} [LinearOrder β] {a b : β} :
    ordCmp a b = .lt ↔ a < b := by
  rcases lt_trichotomy a b with h | h | h
  · simp [ordCmp, h]
  · subst h; simp [ordCmp, lt_irrefl]
  · simp [ordCmp, lt_asymm h, h]

theorem ordCmp_eq_iff {β : Type} [LinearOrder β] {a b : β} :
    ordCmp a b = .eq ↔ a = b := by
  rcases lt_trichotomy a b with h | h | h
  · simp [ordCmp, h]; exact ne_of_lt h
  · subst h; simp [ordCmp, lt_irrefl]
  · simp [ordCmp, lt_asymm h, h]; exact ne_of_gt h

theorem ordCmp_swap {β : Type} [LinearOrder β] (a b : β) :
    ordCmp b a = (ordCmp a b).swap := by
  rcases lt_trichotomy a b with h | h | h
  · simp [ordCmp, h, lt_asymm h, Ordering.swap]
  · subst h; simp [ordCmp, lt_irrefl, Ordering.swap]
  · simp [ordCmp, h, lt_asymm h, Ordering.swap]

theorem ordCmp_lt_trans {β : Type} [LinearOrder β] {a b c : β}
    (h1 : ordCmp a b = .lt) (h2 : ordCmp b c = .lt) : ordCmp a c = .lt := by
  rw [ordCmp_lt_iff] at h1 h2 ⊢
  exact lt_trans h1 h2

theorem bytesCmp_eq_imp {as : List Nat} : ∀ {bs}, bytesCmp as bs = .eq → as = bs := by
  induction as with
  | nil =>
    intro bs h
    cases bs with
    | nil => rfl
    | cons b bs => simp [bytesCmp] at h
  | cons a as ih =>
    intro bs h
    cases bs with
    | nil => simp [bytesCmp] at h
    | cons b bs =>
      unfold bytesCmp at h
      cases ho : ordCmp a b <;> rw [ho] at h <;> simp at h
      rw [ordCmp_eq_iff.mp ho, ih h]

theorem bytesCmp_swap (as : List Nat) : ∀ bs, bytesCmp bs as = (bytesCmp as bs).swap := by
  induction as with
  | nil =>
    intro bs
    cases bs <;> simp [bytesCmp, Ordering.swap]
  | cons a as ih =>
    intro bs
    cases bs with
    | nil => simp [bytesCmp, Ordering.swap]
    | cons b bs =>
      unfold bytesCmp
      rw [ordCmp_swap a b]
      cases ho : ordCmp a b <;> simp [ih bs, Ordering.swap]

theorem bytesCmp_lt_trans {as : List Nat} :
    ∀ {bs cs}, bytesCmp as bs = .lt → bytesCmp bs cs = .lt → bytesCmp as cs = .lt := by
  induction as with
  | nil =>
    intro bs cs h1 h2
    cases bs with
    | nil => simp [bytesCmp] at h1
    | cons b bs =>
      cases cs with
      | nil => simp [bytesCmp] at h2
      | cons c cs => simp [bytesCmp]
  | cons a as ih =>
    intro bs cs h1 h2
    cases bs with
    | nil => simp [bytesCmp] at h1
    | cons b bs =>
      cases cs with
      | nil => simp [bytesCmp] at h2
      | cons c cs =>
        unfold bytesCmp at h1 h2 ⊢
        cases hab : ordCmp a b <;> rw [hab] at h1 <;> try simp at h1
        · cases hbc : ordCmp b c <;> rw [hbc] at h2 <;> try simp at h2
          · rw [ordCmp_lt_trans hab hbc]
          · rw [ordCmp_eq_iff.mp hbc] at hab
            rw [hab]
        · cases hbc : ordCmp b c <;> rw [hbc] at h2 <;> try simp at h2
          · rw [ordCmp_eq_iff.mp hab]
            rw [hbc]
          · rw [ordCmp_eq_iff.mp hab, ordCmp_eq_iff.mp hbc, ordCmp_eq_iff.mpr rfl]
            exact ih h1 h2

theorem charToNat_inj {a b : Char} (h : a.toNat = b.toNat) : a = b := by
  have hv : a.val = b.val := UInt32.toNat.inj h
  cases a
  cases b
  simp_all

theorem strCmp_eq_imp {a b : String} (h : strCmp a b = .eq) : a = b := by
  unfold strCmp at h
  have hm := bytesCmp_eq_imp h
  have hd : a.data = b.data :=
    List.map_injective_iff.mpr (fun x y hxy => charToNat_inj hxy) hm
  exact String.ext hd

theorem strCmp_swap (a b : String) : strCmp b a = (strCmp a b).swap :=
  bytesCmp_swap _ _

theorem strCmp_lt_trans {a b c : String} (h1 : strCmp a b = .lt)
    (h2 : strCmp b c = .lt) : strCmp a c = .lt :=
  bytesCmp_lt_trans h1 h2

theorem oc_eq_iff {o : Ordering} : oc o = .eq ↔ o = .eq := by
  cases o <;> simp [oc]

theorem oc_lt_iff {o : Ordering} : oc o = .lt ↔ o = .lt := by
  cases o <;> simp [oc]

theorem oc_swap (o : Ordering) : oc o.swap = (oc o).swap4 := by
  cases o <;> rfl

theorem fltCmp_eq_imp {a b : Flt} (h : fltCmp a b = .eq) : a = b := by
  cases a <;> cases b <;> simp_all [fltCmp]
  exact ordCmp_eq_iff.mp (oc_eq_iff.mp h)

theorem fltCmp_swap (a b : Flt) : fltCmp b a = (fltCmp a b).swap4 := by
  cases a <;> cases b <;> simp [fltCmp, Cmp4.swap4]
  rw [ordCmp_swap]
  exact oc_swap _

theorem fltCmp_lt_trans {a b c : Flt} (h1 : fltCmp a b = .lt)
    (h2 : fltCmp b c = .lt) : fltCmp a c = .lt := by
  cases a <;> cases b <;> cases c <;> simp_all [fltCmp, oc_lt_iff, ordCmp_lt_iff]
  exact lt_trans h1 h2

theorem tupCmp_eq_imp_of (xs : List HVal)
    (ih : ∀ x, x ∈ xs → ∀ b, pyCmp x b = .ok .eq → x = b) :
    ∀ ys, tupCmp xs ys = .ok .eq → xs = ys := by
  induction xs with
  | nil =>
    intro ys h
    cases ys with
    | nil => rfl
    | cons y ys => simp [tupCmp] at h
  | cons x xs ihl =>
    intro ys h
    cases ys with
    | nil => simp [tupCmp] at h
    | cons y ys =>
      by_cases hxy : x = y
      · subst hxy
        simp [tupCmp] at h
        rw [ihl (fun z hz b hb => ih z (List.mem_cons_of_mem _ hz) b hb) ys h]
      · rw [show tupCmp (x :: xs) (y :: ys) = pyCmp x y from by simp [tupCmp, hxy]] at h
        exact absurd (ih x (by simp) y h) hxy

theorem pyCmp_eq_imp : ∀ a b : HVal, pyCmp a b = .ok .eq → a = b := by
  intro a
  induction a using HVal.induct with
  | h1 s =>
    intro b h
    cases b <;> simp [pyCmp] at h ⊢
    exact strCmp_eq_imp (oc_eq_iff.mp h)
  | h2 bs =>
    intro b h
    cases b <;> simp [pyCmp] at h ⊢
    exact bytesCmp_eq_imp (oc_eq_iff.mp h)
  | h3 x =>
    intro b h
    cases b <;> simp [pyCmp] at h ⊢
    exact fltCmp_eq_imp h
  | h4 =>
    intro b h
    cases b <;> simp [pyCmp] at h
  | h5 xs ih =>
    intro b h
    cases b <;> simp [pyCmp] at h ⊢
    exact tupCmp_eq_imp_of xs ih _ h

theorem tupCmp_swap_of (xs : List HVal)
    (ih : ∀ x, x ∈ xs → ∀ b, pyCmp b x = (pyCmp x b).map Cmp4.swap4) :
    ∀ ys, tupCmp ys xs = (tupCmp xs ys).map Cmp4.swap4 := by
  induction xs with
  | nil =>
    intro ys
    cases ys <;> simp [tupCmp, Except.map, Cmp4.swap4]
  | cons x xs ihl =>
    intro ys
    cases ys with
    | nil => simp [tupCmp, Except.map, Cmp4.swap4]
    | cons y ys =>
      by_cases hxy : x = y
      · subst hxy
        simp [tupCmp]
        exact ihl (fun z hz b => ih z (List.mem_cons_of_mem _ hz) b) ys
      · have hyx : ¬ y = x := fun h => hxy h.symm
        simp [tupCmp, hxy, hyx]
        exact ih x (by simp) y

theorem pyCmp_swap : ∀ a b : HVal, pyCmp b a = (pyCmp a b).map Cmp4.swap4 := by
  intro a
  induction a using HVal.induct with
  | h1 s =>
    intro b
    cases b <;> simp [pyCmp, Except.map]
    rw [strCmp_swap s _]
    exact oc_swap _
  | h2 bs =>
    intro b
    cases b <;> simp [pyCmp, Except.map]
    rw [bytesCmp_swap bs _]
    exact oc_swap _
  | h3 x =>
    intro b
    cases b <;> simp [pyCmp, Except.map]
    exact fltCmp_swap x _
  | h4 =>
    intro b
    cases b <;> simp [pyCmp, Except.map]
  | h5 xs ih =>
    intro b
    cases b <;> simp [pyCmp, Except.map]
    have := tupCmp_swap_of xs ih
    simp [Except.map] at this
    exact this _

theorem tupCmp_lt_trans_of (xs : List HVal)
    (ih : ∀ x, x ∈ xs → ∀ b c, pyCmp x b = .ok .lt → pyCmp b c = .ok .lt →
      pyCmp x c = .ok .lt) :
    ∀ ys zs, tupCmp xs ys = .ok .lt → tupCmp ys zs = .ok .lt →
      tupCmp xs zs = .ok .lt := by
  induction xs with
  | nil =>
    intro ys zs h1 h2
    cases ys with
    | nil => simp [tupCmp] at h1
    | cons y ys =>
      cases zs with
      | nil => simp [tupCmp] at h2
      | cons z zs => simp [tupCmp]
  | cons x xs ihl =>
    intro ys zs h1 h2
    cases ys with
    | nil => simp [tupCmp] at h1
    | cons y ys =>
      cases zs with
      | nil => simp [tupCmp] at h2
      | cons z zs =>
        by_cases hxy : x = y <;> by_cases hyz : y = z
        · subst hxy
          subst hyz
          simp [tupCmp] at h1 h2 ⊢
          exact ihl (fun w hw => ih w (List.mem_cons_of_mem _ hw)) ys zs h1 h2
        · subst hxy
          simp [tupCmp, hyz] at h2 ⊢
          exact h2
        · subst hyz
          simp [tupCmp, hxy] at h1 ⊢
          exact h1
        · simp [tupCmp, hxy] at h1
          simp [tupCmp, hyz] at h2
          have hxz := ih x (by simp) y z h1 h2
          have hne : ¬ x = z := by
            intro he
            subst he
            have hsw := pyCmp_swap x y
            rw [h1, h2] at hsw
            simp [Except.map, Cmp4.swap4] at hsw
          simp [tupCmp, hne]
          exact hxz

theorem pyCmp_lt_trans : ∀ a b c : HVal, pyCmp a b = .ok .lt →
    pyCmp b c = .ok .lt → pyCmp a c = .ok .lt := by
  intro a
  induction a using HVal.induct with
  | h1 s =>
    intro b c h1 h2
    cases b <;> simp [pyCmp] at h1
    cases c <;> simp [pyCmp] at h2 ⊢
    exact oc_lt_iff.mpr (strCmp_lt_trans (oc_lt_iff.mp h1) (oc_lt_iff.mp h2))
  | h2 bs =>
    intro b c h1 h2
    cases b <;> simp [pyCmp] at h1
    cases c <;> simp [pyCmp] at h2 ⊢
    exact oc_lt_iff.mpr (bytesCmp_lt_trans (oc_lt_iff.mp h1) (oc_lt_iff.mp h2))
  | h3 n =>
    intro b c h1 h2
    cases b <;> simp [pyCmp] at h1
    cases c <;> simp [pyCmp] at h2 ⊢
    exact fltCmp_lt_trans h1 h2
  | h4 =>
    intro b c h1 h2
    cases b <;> simp [pyCmp] at h1
  | h5 xs ih =>
    intro b c h1 h2
    cases b <;> simp [pyCmp] at h1
    cases c <;> simp [pyCmp] at h2 ⊢
    exact tupCmp_lt_trans_of xs ih _ _ h1 h2

/-- Non-strict order induced by `pyCmp` on normalized values: strictly
below, or equal.  On values that `sorted` succeeds on, sorted output is
pairwise related by `pyLe`. -/
def pyLe (a b : HVal) : Prop := pyCmp a b = .ok .lt ∨ a = b

theorem pyLe_trans {a b c : HVal} (h1 : pyLe a b) (h2 : pyLe b c) : pyLe a c := by
  rcases h1 with h1 | h1
  · rcases h2 with h2 | h2
    · exact Or.inl (pyCmp_lt_trans _ _ _ h1 h2)
    · subst h2; exact Or.inl h1
  · subst h1; exact h2

theorem pyLe_antisymm {a b : HVal} (h1 : pyLe a b) (h2 : pyLe b a) : a = b := by
  rcases h1 with h1 | h1
  · rcases h2 with h2 | h2
    · have hsw := pyCmp_swap a b
      rw [h1, h2] at hsw
      simp [Except.map, Cmp4.swap4] at hsw
    · exact h2.symm
  · exact h1

instance : IsTrans HVal pyLe := ⟨fun _ _ _ => pyLe_trans⟩

instance : IsAntisymm HVal pyLe := ⟨fun _ _ => pyLe_antisymm⟩

theorem insertE_perm {x : HVal} : ∀ {l l2 : List HVal},
    insertE x l = .ok l2 → l2.Perm (x :: l) := by
  intro l
  induction l with
  | nil =>
    intro l2 h
    simp [insertE] at h
    rw [← h]
  | cons y ys ih =>
    intro l2 h
    unfold insertE at h
    cases hc : pyCmp x y <;> rw [hc] at h
    · simp at h
    · rename_i o
      cases o with
      | lt =>
        simp at h
        rw [← h]
      | eq =>
        simp at h
        rw [← h]
      | un =>
        simp at h
        rw [← h]
      | gt =>
        cases hr : insertE x ys <;> rw [hr] at h <;> simp at h
        rw [← h]
        exact (List.Perm.cons y (ih hr)).trans (List.Perm.swap x y ys)

theorem sortE_perm : ∀ {l l2 : List HVal}, sortE l = .ok l2 → l2.Perm l := by
  intro l
  induction l with
  | nil =>
    intro l2 h
    simp [sortE] at h
    rw [← h]
  | cons x xs ih =>
    intro l2 h
    unfold sortE at h
    cases hr : sortE xs <;> rw [hr] at h
    · simp at h
    · exact (insertE_perm h).trans (List.Perm.cons x (ih hr))

/-- Two normalized values are order-comparable: comparing them neither
raises nor returns the unordered (NaN) outcome.  This is the fragment on
which Python's `sorted` is a genuine sort. -/
def orderedOkB (a b : HVal) : Bool :=
  match pyCmp a b with
  | .ok .un => false
  | .ok _ => true
  | .error _ => false

theorem orderedOkB_symm (a b : HVal) : orderedOkB b a = orderedOkB a b := by
  unfold orderedOkB
  rw [pyCmp_swap a b]
  cases pyCmp a b with
  | error e => rfl
  | ok o => cases o <;> rfl

/-- All ordered pairs of elements of the list are order-comparable. -/
def pairsOrderedB : List HVal → Bool
  | [] => true
  | x :: xs => (xs.all fun y => orderedOkB x y) && pairsOrderedB xs

theorem pairsOrderedB_iff {l : List HVal} : pairsOrderedB l = true ↔
    l.Pairwise (fun a b => orderedOkB a b = true) := by
  induction l with
  | nil => simp [pairsOrderedB]
  | cons x xs ih =>
    simp [pairsOrderedB, List.pairwise_cons, List.all_eq_true, ih]

mutual

/-- The value contains no NaN anywhere.  On NaN-free values structural
equality on `HVal` coincides exactly with Python `==` (see `tupCmp`), so
theorems conditioned on this predicate transfer to the program without the
object-identity caveat. -/
def nanFreeB : HVal → Bool
  | .hnum .nan => false
  | .hnum _ => true
  | .hstr _ => true
  | .hbytes _ => true
  | .hnone => true
  | .htuple xs => nanFreeListB xs

/-- All elements of the list are NaN-free. -/
def nanFreeListB : List HVal → Bool
  | [] => true
  | x :: xs => nanFreeB x && nanFreeListB xs

end

theorem insertE_sorted {x : HVal} : ∀ {l l2 : List HVal},
    (∀ y, y ∈ l → orderedOkB x y = true) → List.Pairwise pyLe l →
    insertE x l = .ok l2 → List.Pairwise pyLe l2 := by
  intro l
  induction l with
  | nil =>
    intro l2 _ _ h
    simp [insertE] at h
    rw [← h]
    simp
  | cons y ys ih =>
    intro l2 hord hp h
    unfold insertE at h
    cases hc : pyCmp x y <;> rw [hc] at h
    · simp at h
    · rename_i o
      cases o with
      | lt =>
        simp at h
        rw [← h]
        refine List.Pairwise.cons ?_ hp
        intro z hz
        rcases List.mem_cons.mp hz with rfl | hz
        · exact Or.inl hc
        · exact pyLe_trans (Or.inl hc) ((List.pairwise_cons.mp hp).1 z hz)
      | eq =>
        have hxy := pyCmp_eq_imp _ _ hc
        simp at h
        rw [← h]
        refine List.Pairwise.cons ?_ hp
        intro z hz
        rcases List.mem_cons.mp hz with rfl | hz
        · exact Or.inr hxy
        · exact pyLe_trans (Or.inr hxy) ((List.pairwise_cons.mp hp).1 z hz)
      | un =>
        have hun := hord y (by simp)
        unfold orderedOkB at hun
        rw [hc] at hun
        simp at hun
      | gt =>
        cases hr : insertE x ys <;> rw [hr] at h <;> simp at h
        rw [← h]
        have hys := List.pairwise_cons.mp hp
        refine List.Pairwise.cons ?_
          (ih (fun z hz => hord z (by simp [hz])) hys.2 hr)
        intro z hz
        have hz2 := (insertE_perm hr).mem_iff.mp hz
        rcases List.mem_cons.mp hz2 with hzx | hz2
        · subst hzx
          have hsw := pyCmp_swap z y
          rw [hc] at hsw
          simp [Except.map, Cmp4.swap4] at hsw
          exact Or.inl hsw
        · exact hys.1 z hz2

theorem sortE_sorted : ∀ {l l2 : List HVal},
    l.Pairwise (fun a b => orderedOkB a b = true) → sortE l = .ok l2 →
    List.Pairwise pyLe l2 := by
  intro l
  induction l with
  | nil =>
    intro l2 _ h
    simp [sortE] at h
    subst h
    simp
  | cons x xs ih =>
    intro l2 hord h
    unfold sortE at h
    cases hr : sortE xs <;> rw [hr] at h
    · simp at h
    · have hx := (List.pairwise_cons.mp hord).1
      exact insertE_sorted
        (fun y hy => hx y ((sortE_perm hr).mem_iff.mp hy))
        (ih (List.pairwise_cons.mp hord).2 hr) h

theorem sortE_eq_of_perm {l1 l2 s1 s2 : List HVal}
    (hord : l1.Pairwise (fun a b => orderedOkB a b = true)) (hp : l1.Perm l2)
    (h1 : sortE l1 = .ok s1) (h2 : sortE l2 = .ok s2) : s1 = s2 := by
  have hord2 : l2.Pairwise (fun a b => orderedOkB a b = true) :=
    (hp.pairwise_iff (fun {a b} hab => by rw [orderedOkB_symm]; exact hab)).mp
      hord
  have e1 := sortE_perm h1
  have e2 := sortE_perm h2
  exact List.eq_of_perm_of_sorted (e1.trans (hp.trans e2.symm))
    (sortE_sorted hord h1) (sortE_sorted hord2 h2)

/-- Total extraction of a normalized value, meaningful on inputs where
`make_hashable` succeeds. -/
def mhD (v : PyVal) : HVal :=
  match make_hashable v with
  | .ok h => h
  | .error _ => .hnone

/-- Normalized dict item as a function of the item, meaningful on items
whose key and value normalize successfully. -/
def mhPairD (e : PyVal × PyVal) : HVal :=
  .htuple [mhD e.1, mhD e.2]

theorem mhList_ok : ∀ {vs : List PyVal} {l : List HVal},
    mhList vs = .ok l → l = vs.map mhD := by
  intro vs
  induction vs with
  | nil =>
    intro l h
    simp [mhList] at h
    subst h
    rfl
  | cons v vs ih =>
    intro l h
    unfold mhList at h
    cases hv : make_hashable v <;> rw [hv] at h
    · simp at h
    · cases ht : mhList vs <;> rw [ht] at h <;> simp at h
      rw [← h, ih ht]
      simp [mhD, hv]

theorem mhPairs_ok : ∀ {es : List (PyVal × PyVal)} {l : List HVal},
    mhPairs es = .ok l → l = es.map mhPairD := by
  intro es
  induction es with
  | nil =>
    intro l h
    simp [mhPairs] at h
    subst h
    rfl
  | cons e es ih =>
    intro l h
    obtain ⟨k, v⟩ := e
    unfold mhPairs at h
    cases hk : make_hashable k <;> rw [hk] at h
    · simp at h
    · cases hv : make_hashable v <;> rw [hv] at h
      · simp at h
      · cases ht : mhPairs es <;> rw [ht] at h <;> simp at h
        rw [← h, ih ht]
        simp [mhPairD, mhD, hk, hv]

/-- Dict normalization is invariant under item order on the fragment where
`sorted` is a genuine sort: when the normalized items are pairwise
order-comparable, permuted item lists that both normalize successfully
produce the same key.  (Without that hypothesis the statement is false:
NaN makes the sort order-dependent, see the C5 counterexample.) -/
theorem pdict_perm_key_eq {es1 es2 : List (PyVal × PyVal)} {k1 k2 : HVal}
    (hord : (es1.map mhPairD).Pairwise (fun a b => orderedOkB a b = true))
    (hp : es1.Perm es2) (h1 : make_hashable (.pdict es1) = .ok k1)
    (h2 : make_hashable (.pdict es2) = .ok k2) : k1 = k2 := by
  unfold make_hashable at h1 h2
  cases hq1 : mhPairs es1 <;> rw [hq1] at h1 <;> simp at h1
  cases hq2 : mhPairs es2 <;> rw [hq2] at h2 <;> simp at h2
  rename_i l1 l2
  unfold sortedTuple at h1 h2
  cases hs1 : sortE l1 <;> rw [hs1] at h1 <;> simp at h1
  cases hs2 : sortE l2 <;> rw [hs2] at h2 <;> simp at h2
  rw [← h1, ← h2]
  have hordl : l1.Pairwise (fun a b => orderedOkB a b = true) := by
    rw [mhPairs_ok hq1]
    exact hord
  have hlp : l1.Perm l2 := by
    rw [mhPairs_ok hq1, mhPairs_ok hq2]
    exact hp.map _
  rw [sortE_eq_of_perm hordl hlp hs1 hs2]

/-- Set (and frozenset, and list) normalization is invariant under element
order on the fragment where `sorted` is a genuine sort: when the
normalized elements are pairwise order-comparable, permuted element lists
that both normalize successfully produce the same key. -/
theorem pset_perm_key_eq {xs1 xs2 : List PyVal} {k1 k2 : HVal}
    (hord : (xs1.map mhD).Pairwise (fun a b => orderedOkB a b = true))
    (hp : xs1.Perm xs2) (h1 : make_hashable (.pset xs1) = .ok k1)
    (h2 : make_hashable (.pset xs2) = .ok k2) : k1 = k2 := by
  unfold make_hashable at h1 h2
  cases hq1 : mhList xs1 <;> rw [hq1] at h1 <;> simp at h1
  cases hq2 : mhList xs2 <;> rw [hq2] at h2 <;> simp at h2
  rename_i l1 l2
  unfold sortedTuple at h1 h2
  cases hs1 : sortE l1 <;> rw [hs1] at h1 <;> simp at h1
  cases hs2 : sortE l2 <;> rw [hs2] at h2 <;> simp at h2
  rw [← h1, ← h2]
  have hordl : l1.Pairwise (fun a b => orderedOkB a b = true) := by
    rw [mhList_ok hq1]
    exact hord
  have hlp : l1.Perm l2 := by
    rw [mhList_ok hq1, mhList_ok hq2]
    exact hp.map _
  rw [sortE_eq_of_perm hordl hlp hs1 hs2]

/-- Two dict items whose keys are distinct strings are order-comparable as
normalized pair tuples: the string comparison at the first position
decides, whatever the values are (even NaN). -/
theorem orderedOkB_pairD {s t : String} (hst : s ≠ t) (v w : HVal) :
    orderedOkB (.htuple [.hstr s, v]) (.htuple [.hstr t, w]) = true := by
  unfold orderedOkB
  have h1 : pyCmp (.htuple [.hstr s, v]) (.htuple [.hstr t, w]) =
      .ok (oc (strCmp s t)) := by
    show tupCmp [.hstr s, v] [.hstr t, w] = _
    unfold tupCmp
    rw [if_neg (by simp [hst])]
    rfl
  rw [h1]
  cases strCmp s t <;> rfl

/-- A well-formed keyword-argument mapping, as Python guarantees for
`**kwargs`: every key is a string and the keys are pairwise distinct.  The
embedding's dict type is wider (arbitrary keys), so the kwargs theorems
state this domain explicitly. -/
def kwargsWfB : List (PyVal × PyVal) → Bool
  | [] => true
  | (k, _) :: es =>
    match k with
    | .pstr s =>
      (es.all fun e =>
        match e.1 with
        | .pstr t => decide (t ≠ s)
        | _ => true) && kwargsWfB es
    | _ => false

theorem kwargsWf_keys : ∀ {es : List (PyVal × PyVal)}, kwargsWfB es = true →
    ∀ e, e ∈ es → ∃ s, e.1 = .pstr s := by
  intro es
  induction es with
  | nil => intro _ e he; simp at he
  | cons e0 es ih =>
    intro h e he
    obtain ⟨k, v⟩ := e0
    unfold kwargsWfB at h
    cases k with
    | pstr s =>
      simp [Bool.and_eq_true] at h
      rcases List.mem_cons.mp he with rfl | he2
      · exact ⟨s, rfl⟩
      · exact ih h.2 e he2
    | pbytes b => simp at h
    | pint n => simp at h
    | pfloat x => simp at h
    | pbool b => simp at h
    | pnone => simp at h
    | ptuple xs => simp at h
    | plist xs => simp at h
    | pset xs => simp at h
    | pfrozenset xs => simp at h
    | pdict es2 => simp at h
    | pobj fs => simp at h
    | pfallback r => simp at h

theorem kwargsWf_ordered : ∀ {es : List (PyVal × PyVal)},
    kwargsWfB es = true →
    (es.map mhPairD).Pairwise (fun a b => orderedOkB a b = true) := by
  intro es
  induction es with
  | nil => intro _; simp
  | cons e0 es ih =>
    intro h
    obtain ⟨k, v⟩ := e0
    have hk := kwargsWf_keys h (k, v) (by simp)
    obtain ⟨s, hs⟩ := hk
    simp at hs
    subst hs
    unfold kwargsWfB at h
    simp [Bool.and_eq_true, List.all_eq_true] at h
    rw [List.map_cons, List.pairwise_cons]
    refine ⟨?_, ih h.2⟩
    intro b hb
    obtain ⟨e2, he2, hbe⟩ := List.mem_map.mp hb
    obtain ⟨k2, v2⟩ := e2
    obtain ⟨t, ht⟩ := kwargsWf_keys h.2 (k2, v2) he2
    simp at ht
    subst ht
    have hts : t ≠ s := by
      have := h.1 (.pstr t) v2 he2
      simpa using this
    rw [← hbe]
    show orderedOkB (.htuple [.hstr s, mhD v]) (.htuple [.hstr t, mhD v2]) =
      true
    exact orderedOkB_pairD (fun hse => hts hse.symm) _ _

/-- Success test for a fallible computation. -/
def isOkB {α : Type} (e : Except Unit α) : Bool :=
  match e with
  | .ok _ => true
  | .error _ => false

/-- All ordered pairs of elements of the list are comparable by `pyCmp`,
which is what `sorted` needs in order not to raise. -/
def pairsOkB : List HVal → Bool
  | [] => true
  | x :: xs => (xs.all fun y => isOkB (pyCmp x y)) && pairsOkB xs

/-- A normalized element list is ready for `sorted`: it was produced
without failure and its elements are pairwise comparable. -/
def sortReady (e : Except Unit (List HVal)) : Bool :=
  match e with
  | .ok l => pairsOkB l
  | .error _ => false

mutual

/-- Values on which `make_hashable` cannot raise: every unordered
collection and mapping reached by the recursion has pairwise-comparable
normalized elements (for example, elements of one primitive type).  On the
complement, `sorted` raises `TypeError` inside `make_hashable`. -/
def sortableB : PyVal → Bool
  | .pstr _ => true
  | .pbytes _ => true
  | .pint _ => true
  | .pfloat _ => true
  | .pbool _ => true
  | .pnone => true
  | .pfallback _ => true
  | .ptuple xs => sortableListB xs
  | .plist xs => sortableListB xs && sortReady (mhList xs)
  | .pset xs => sortableListB xs && sortReady (mhList xs)
  | .pfrozenset xs => sortableListB xs && sortReady (mhList xs)
  | .pdict es => sortablePairsB es && sortReady (mhPairs es)
  | .pobj fs => sortableFieldsB fs && sortReady (mhFields fs)

/-- All elements of the list are sortable. -/
def sortableListB : List PyVal → Bool
  | [] => true
  | v :: vs => sortableB v && sortableListB vs

/-- All keys and values of the item list are sortable. -/
def sortablePairsB : List (PyVal × PyVal) → Bool
  | [] => true
  | (k, v) :: es => sortableB k && sortableB v && sortablePairsB es

/-- All field values of the field list are sortable. -/
def sortableFieldsB : List (String × PyVal) → Bool
  | [] => true
  | (_, v) :: fs => sortableB v && sortableFieldsB fs

end

theorem insertE_ok_of {x : HVal} : ∀ {l : List HVal},
    (∀ y, y ∈ l → isOkB (pyCmp x y) = true) → ∃ r, insertE x l = .ok r := by
  intro l
  induction l with
  | nil => exact fun _ => ⟨[x], rfl⟩
  | cons y ys ih =>
    intro h
    have hy := h y (by simp)
    cases hc : pyCmp x y with
    | error e => rw [hc] at hy; simp [isOkB] at hy
    | ok o =>
      cases o with
      | lt => exact ⟨x :: y :: ys, by simp [insertE, hc]⟩
      | eq => exact ⟨x :: y :: ys, by simp [insertE, hc]⟩
      | un => exact ⟨x :: y :: ys, by simp [insertE, hc]⟩
      | gt =>
        obtain ⟨r, hr⟩ := ih (fun z hz => h z (by simp [hz]))
        exact ⟨y :: r, by simp [insertE, hc, hr]⟩

theorem sortE_ok_of : ∀ {l : List HVal}, pairsOkB l = true →
    ∃ r, sortE l = .ok r := by
  intro l
  induction l with
  | nil => exact fun _ => ⟨[], rfl⟩
  | cons x xs ih =>
    intro h
    simp [pairsOkB, Bool.and_eq_true] at h
    obtain ⟨r, hr⟩ := ih h.2
    have hall : ∀ y, y ∈ r → isOkB (pyCmp x y) = true := by
      intro y hy
      exact h.1 y ((sortE_perm hr).mem_iff.mp hy)
    obtain ⟨s, hs⟩ := insertE_ok_of hall
    exact ⟨s, by simp [sortE, hr, hs]⟩

mutual

theorem sortable_total : ∀ v : PyVal, sortableB v = true →
    ∃ h, make_hashable v = .ok h
  | .pstr s, _ => ⟨.hstr s, rfl⟩
  | .pbytes b, _ => ⟨.hbytes b, rfl⟩
  | .pint n, _ => ⟨.hnum (.finite (n : ℚ)), rfl⟩
  | .pfloat x, _ => ⟨.hnum x, rfl⟩
  | .pbool b, _ => ⟨.hnum (.finite (if b then 1 else 0)), rfl⟩
  | .pnone, _ => ⟨.hnone, rfl⟩
  | .pfallback r, _ => ⟨.hstr r, rfl⟩
  | .ptuple xs, hs => by
    obtain ⟨l, hl⟩ := sortable_list_total xs (by simpa [sortableB] using hs)
    exact ⟨.htuple l, by simp [make_hashable, hl]⟩
  | .plist xs, hs => by
    rw [sortableB, Bool.and_eq_true] at hs
    obtain ⟨l, hl⟩ := sortable_list_total xs hs.1
    have hready := hs.2
    rw [hl] at hready
    obtain ⟨r, hr⟩ := sortE_ok_of (by simpa [sortReady] using hready)
    exact ⟨.htuple r, by simp [make_hashable, hl, sortedTuple, hr]⟩
  | .pset xs, hs => by
    rw [sortableB, Bool.and_eq_true] at hs
    obtain ⟨l, hl⟩ := sortable_list_total xs hs.1
    have hready := hs.2
    rw [hl] at hready
    obtain ⟨r, hr⟩ := sortE_ok_of (by simpa [sortReady] using hready)
    exact ⟨.htuple r, by simp [make_hashable, hl, sortedTuple, hr]⟩
  | .pfrozenset xs, hs => by
    rw [sortableB, Bool.and_eq_true] at hs
    obtain ⟨l, hl⟩ := sortable_list_total xs hs.1
    have hready := hs.2
    rw [hl] at hready
    obtain ⟨r, hr⟩ := sortE_ok_of (by simpa [sortReady] using hready)
    exact ⟨.htuple r, by simp [make_hashable, hl, sortedTuple, hr]⟩
  | .pdict es, hs => by
    rw [sortableB, Bool.and_eq_true] at hs
    obtain ⟨l, hl⟩ := sortable_pairs_total es hs.1
    have hready := hs.2
    rw [hl] at hready
    obtain ⟨r, hr⟩ := sortE_ok_of (by simpa [sortReady] using hready)
    exact ⟨.htuple r, by simp [make_hashable, hl, sortedTuple, hr]⟩
  | .pobj fs, hs => by
    rw [sortableB, Bool.and_eq_true] at hs
    obtain ⟨l, hl⟩ := sortable_fields_total fs hs.1
    have hready := hs.2
    rw [hl] at hready
    obtain ⟨r, hr⟩ := sortE_ok_of (by simpa [sortReady] using hready)
    exact ⟨.htuple r, by simp [make_hashable, hl, sortedTuple, hr]⟩

theorem sortable_list_total : ∀ xs : List PyVal, sortableListB xs = true →
    ∃ l, mhList xs = .ok l
  | [], _ => ⟨[], rfl⟩
  | v :: vs, h => by
    rw [sortableListB, Bool.and_eq_true] at h
    obtain ⟨x, hx⟩ := sortable_total v h.1
    obtain ⟨l, hl⟩ := sortable_list_total vs h.2
    exact ⟨x :: l, by simp [mhList, hx, hl]⟩

theorem sortable_pairs_total : ∀ es : List (PyVal × PyVal),
    sortablePairsB es = true → ∃ l, mhPairs es = .ok l
  | [], _ => ⟨[], rfl⟩
  | (k, v) :: es, h => by
    rw [sortablePairsB, Bool.and_eq_true, Bool.and_eq_true] at h
    obtain ⟨hk, hkv⟩ := h
    obtain ⟨x, hx⟩ := sortable_total k hk.1
    obtain ⟨y, hy⟩ := sortable_total v hk.2
    obtain ⟨l, hl⟩ := sortable_pairs_total es hkv
    exact ⟨.htuple [x, y] :: l, by simp [mhPairs, hx, hy, hl]⟩

theorem sortable_fields_total : ∀ fs : List (String × PyVal),
    sortableFieldsB fs = true → ∃ l, mhFields fs = .ok l
  | [], _ => ⟨[], rfl⟩
  | (n, v) :: fs, h => by
    rw [sortableFieldsB, Bool.and_eq_true] at h
    obtain ⟨y, hy⟩ := sortable_total v h.1
    obtain ⟨l, hl⟩ := sortable_fields_total fs h.2
    exact ⟨.htuple [.hstr n, y] :: l, by simp [mhFields, hy, hl]⟩

end

/-- C5 counterexample: key-normalization invariance fails on unordered
collections containing NaN.  The list [nan, 1.0] and its permutation
[1.0, nan] both normalize successfully, but every comparison against NaN
returns False, so `sorted` leaves each list in its input order and the two
derived keys differ: (nan, 1.0) versus (1.0, nan). -/
theorem normalization_nan_ce :
    [PyVal.pfloat .nan, .pfloat (.finite 1)].Perm
      [.pfloat (.finite 1), .pfloat .nan] ∧
    make_hashable (.plist [.pfloat .nan, .pfloat (.finite 1)]) =
      .ok (.htuple [.hnum .nan, .hnum (.finite 1)]) ∧
    make_hashable (.plist [.pfloat (.finite 1), .pfloat .nan]) =
      .ok (.htuple [.hnum (.finite 1), .hnum .nan]) ∧
    make_hashable (.plist [.pfloat .nan, .pfloat (.finite 1)]) ≠
      make_hashable (.plist [.pfloat (.finite 1), .pfloat .nan]) :=
  ⟨List.Perm.swap (PyVal.pfloat (Flt.finite 1)) (PyVal.pfloat Flt.nan) [],
   by decide, by decide, by decide⟩

/-- C5 (amended): key-normalization invariance holds on the fragment where
Python's `sorted` is a genuine sort — normalized elements (dict items, set
elements) pairwise order-comparable and NaN-free.  Mappings that are equal
up to item order then normalize to equal keys; unordered collections that
are equal up to element order normalize to equal keys; ordered sequences
preserve element order, so the tuple (1, 2) normalizes differently from
(2, 1).  Pairwise comparability makes the sorted output order-independent
in the model; NaN-freeness is required for the result to transfer to the
program, because on NaN-containing elements the model's structural
equality inside `tupCmp` is finer than Python's `==` (distinct NaN objects
compare unequal in Python, making `sorted` order-dependent even between
structurally identical elements — see `normalization_nan_ce` for the flat
case). -/
theorem normalization_invariance_c5 :
    (∀ (es1 es2 : List (PyVal × PyVal)) (k1 k2 : HVal),
      nanFreeListB (es1.map mhPairD) = true →
      pairsOrderedB (es1.map mhPairD) = true → es1.Perm es2 →
      make_hashable (.pdict es1) = .ok k1 →
      make_hashable (.pdict es2) = .ok k2 → k1 = k2) ∧
    (∀ (xs1 xs2 : List PyVal) (k1 k2 : HVal),
      nanFreeListB (xs1.map mhD) = true →
      pairsOrderedB (xs1.map mhD) = true → xs1.Perm xs2 →
      make_hashable (.pset xs1) = .ok k1 →
      make_hashable (.pset xs2) = .ok k2 → k1 = k2) ∧
    make_hashable (.ptuple [.pint 1, .pint 2]) ≠
      make_hashable (.ptuple [.pint 2, .pint 1]) :=
  ⟨fun _ _ _ _ _ hord hp h1 h2 =>
      pdict_perm_key_eq (pairsOrderedB_iff.mp hord) hp h1 h2,
   fun _ _ _ _ _ hord hp h1 h2 =>
      pset_perm_key_eq (pairsOrderedB_iff.mp hord) hp h1 h2, by decide⟩

/-- Witness for C5 at the spec's example: the dict written in both key
orders, and a two-element unordered collection written in both element
orders, normalize identically. -/
theorem normalization_invariance_c5_witness :
    make_hashable (.pdict [(.pstr "a", .pint 1), (.pstr "b", .pint 2)]) =
      make_hashable (.pdict [(.pstr "b", .pint 2), (.pstr "a", .pint 1)]) ∧
    make_hashable (.pset [.pint 1, .pint 2]) =
      make_hashable (.pset [.pint 2, .pint 1]) := by
  have h1 : make_hashable (.pdict [(.pstr "a", .pint 1), (.pstr "b", .pint 2)]) =
      .ok (.htuple [.htuple [.hstr "a", .hnum (.finite 1)], .htuple [.hstr "b", .hnum (.finite 2)]]) := by
    decide
  have h2 : make_hashable (.pdict [(.pstr "b", .pint 2), (.pstr "a", .pint 1)]) =
      .ok (.htuple [.htuple [.hstr "a", .hnum (.finite 1)], .htuple [.hstr "b", .hnum (.finite 2)]]) := by
    decide
  have h3 : make_hashable (.pset [.pint 1, .pint 2]) =
      .ok (.htuple [.hnum (.finite 1), .hnum (.finite 2)]) := by decide
  have h4 : make_hashable (.pset [.pint 2, .pint 1]) =
      .ok (.htuple [.hnum (.finite 1), .hnum (.finite 2)]) := by decide
  constructor
  · exact h1.trans ((congrArg Except.ok (normalization_invariance_c5.1 _ _ _ _
      (by decide) (by decide)
      (List.Perm.swap (.pstr "b", .pint 2) (.pstr "a", .pint 1) []) h1 h2)).trans
      h2.symm)
  · exact h3.trans ((congrArg Except.ok (normalization_invariance_c5.2.1 _ _ _ _
      (by decide) (by decide)
      (List.Perm.swap (.pint 2) (.pint 1) []) h3 h4)).trans h4.symm)

/-- C6 counterexample: binding the same value positionally versus by
keyword produces different cache keys.  For a parameter x, the call f(1)
has args = (1,), kwargs = {} and the call f(x=1) has args = (),
kwargs = {"x": 1}; `_make_key` keeps the two slots separate, so the keys
differ and the calls do not share a cache entry. -/
theorem make_key_binding_ce :
    _make_key [.pint 1] [] ≠ _make_key [] [(.pstr "x", .pint 1)] := by decide

/-- C6 (amended): two argument sets that agree slot-by-slot derive equal
keys — in particular, on any well-formed keyword mapping (string keys,
pairwise distinct, as Python guarantees for **kwargs) the derived key is
invariant under keyword-argument order, whatever the values are — but the
invariance does NOT extend across binding modes: positional and keyword
bindings are normalized separately, so f(1) and f(x=1) derive different
keys.  The distinct string keys decide every pairwise comparison of
normalized (key, value) items at the key position, so the item sort is
order-independent even when values are incomparable (e.g. NaN). -/
theorem make_key_kwargs_invariance (args : List PyVal)
    (kw1 kw2 : List (PyVal × PyVal)) (k1 k2 : HVal × HVal)
    (hwf : kwargsWfB kw1 = true) (hp : kw1.Perm kw2)
    (h1 : _make_key args kw1 = .ok k1) (h2 : _make_key args kw2 = .ok k2) :
    k1 = k2 := by
  unfold _make_key at h1 h2
  cases ha : make_hashable (.ptuple args) <;> rw [ha] at h1 h2
  · simp at h1
  · cases hk1 : make_hashable (.pdict kw1) <;> rw [hk1] at h1 <;> simp at h1
    cases hk2 : make_hashable (.pdict kw2) <;> rw [hk2] at h2 <;> simp at h2
    rw [← h1, ← h2, pdict_perm_key_eq (kwargsWf_ordered hwf) hp hk1 hk2]

/-- Witness for C6 (amended): same positional argument, keyword items in
both orders, equal keys. -/
theorem make_key_kwargs_invariance_witness :
    _make_key [.pint 5] [(.pstr "a", .pint 1), (.pstr "b", .pint 2)] =
      _make_key [.pint 5] [(.pstr "b", .pint 2), (.pstr "a", .pint 1)] := by
  have h1 : _make_key [.pint 5] [(.pstr "a", .pint 1), (.pstr "b", .pint 2)] =
      .ok (.htuple [.hnum (.finite 5)],
        .htuple [.htuple [.hstr "a", .hnum (.finite 1)], .htuple [.hstr "b", .hnum (.finite 2)]]) := by
    decide
  have h2 : _make_key [.pint 5] [(.pstr "b", .pint 2), (.pstr "a", .pint 1)] =
      .ok (.htuple [.hnum (.finite 5)],
        .htuple [.htuple [.hstr "a", .hnum (.finite 1)], .htuple [.hstr "b", .hnum (.finite 2)]]) := by
    decide
  exact h1.trans ((congrArg Except.ok (make_key_kwargs_invariance _ _ _ _ _
    (by decide)
    (List.Perm.swap (.pstr "b", .pint 2) (.pstr "a", .pint 1) []) h1 h2)).trans
    h2.symm)

/-- C7 counterexample: `make_hashable` is not total on unordered
collections that mix incomparable element types.  Normalizing the list
[1, "a"] reaches sorted over the normalized elements, and Python's
comparison 1 < "a" raises `TypeError`, so the call fails. -/
theorem make_hashable_mixed_ce :
    make_hashable (.plist [.pint 1, .pstr "a"]) = .error () := by decide

/-- C7 (amended): `make_hashable` is deterministic and side-effect-free (a
pure function of its input in this embedding), and it is total on inputs
whose unordered collections and mappings have pairwise-comparable
normalized elements; on collections mixing incomparable element types the
internal `sorted` raises `TypeError`, which propagates to the caller. -/
theorem make_hashable_total_amended (v : PyVal) (h : sortableB v = true) :
    ∃ k, make_hashable v = .ok k :=
  sortable_total v h

/-- Witness for C7 (amended): a homogeneous dict is sortable and
normalizes successfully. -/
theorem make_hashable_total_amended_witness :
    sortableB (.pdict [(.pstr "a", .pint 1), (.pstr "b", .pint 2)]) = true ∧
    ∃ k, make_hashable (.pdict [(.pstr "a", .pint 1), (.pstr "b", .pint 2)]) =
      .ok k :=
  ⟨by decide, make_hashable_total_amended _ (by decide)⟩

/-- C10: cross-container key collisions.  A tuple, a list, a set and a
frozenset holding the same elements normalize to the same key — (1, 2),
[1, 2] and [2, 1] all normalize to the tuple (1, 2) — and consequently two
calls differing only in the container kind of an argument derive the same
cache key and share one entry. -/
theorem cross_container_collision_c10 :
    make_hashable (.ptuple [.pint 1, .pint 2]) = .ok (.htuple [.hnum (.finite 1), .hnum (.finite 2)]) ∧
    make_hashable (.plist [.pint 1, .pint 2]) = .ok (.htuple [.hnum (.finite 1), .hnum (.finite 2)]) ∧
    make_hashable (.plist [.pint 2, .pint 1]) = .ok (.htuple [.hnum (.finite 1), .hnum (.finite 2)]) ∧
    make_hashable (.pset [.pint 1, .pint 2]) = .ok (.htuple [.hnum (.finite 1), .hnum (.finite 2)]) ∧
    make_hashable (.pfrozenset [.pint 2, .pint 1]) =
      .ok (.htuple [.hnum (.finite 1), .hnum (.finite 2)]) ∧
    _make_key [.ptuple [.pint 1, .pint 2]] [] =
      _make_key [.plist [.pint 2, .pint 1]] [] := by
  refine ⟨by decide, by decide, by decide, by decide, by decide, by decide⟩

/-- Engine configuration fixed at construction (source lines 39-44):
`maxsize` (validated positive by `__init__`, which raises `ValueError` on
`maxsize <= 0`) and the optional TTL. -/
structure Config where
  maxsize : Nat
  ttl : Option Int
  deriving DecidableEq

/-- The mutable state of the engine that the sync path reads and writes:
`self._cache`, an ordered map modelled as a list of (key, value,
timestamp) triples in recency order — least recently used first (the
`OrderedDict` front, popped by `popitem(last=False)`), most recently used
last (the `move_to_end` end) — plus the hit and miss counters. -/
structure CacheState (κ α : Type) where
  cache : List (κ × α × Int)
  hits : Nat
  misses : Nat
  deriving DecidableEq

/-- Shallow embedding of `AdvancedLRUCache._expired` (source lines 63-64):
`self.ttl is not None and (now - ts) >= self.ttl`. -/
def _expired (ttl : Option Int) (ts now : Int) : Bool :=
  match ttl with
  | none => false
  | some t => decide (now - ts ≥ t)

/-- Lookup of a key in the ordered map: the `key in self._cache` test and
`self._cache[key]` read combined. -/
def findEntry {κ α : Type} [DecidableEq κ] (key : κ) (c : List (κ × α × Int)) :
    Option (α × Int) :=
  match c.find? (fun e => decide (e.1 = key)) with
  | some e => some e.2
  | none => none

/-- Removal of a key's entry from the ordered map (`del self._cache[key]`
and `self._cache.pop(key, None)`). -/
def eraseKey {κ α : Type} [DecidableEq κ] (key : κ) (c : List (κ × α × Int)) :
    List (κ × α × Int) :=
  c.eraseP (fun e => decide (e.1 = key))

/-- Effect of placing an entry at the most-recently-used position: the
combined `self._cache[key] = entry; self._cache.move_to_end(key)` of the
write-back, and the hit-path `move_to_end(key)` (with the entry that is
already stored): the key's entry leaves its position and the given entry
is appended at the most-recently-used end. -/
def moveToEnd {κ α : Type} [DecidableEq κ] (key : κ) (v : α) (ts : Int)
    (c : List (κ × α × Int)) : List (κ × α × Int) :=
  eraseKey key c ++ [(key, v, ts)]

/-- The locked lookup fragment shared by `call` (source lines 74-81) and
`call_async` (lines 107-114): if the key is present and fresh, move it to
the most-recently-used position, increment the hit counter and return the
value; if present but expired, delete the entry and report not found; if
absent, report not found.  The miss counter is NOT incremented here: the
sync path counts the miss immediately afterwards (line 82), while the
async path counts it only when it claims a new flight (line 119). -/
def lookupStep {κ α : Type} [DecidableEq κ] (cfg : Config) (key : κ)
    (now : Int) (s : CacheState κ α) : Option α × CacheState κ α :=
  match findEntry key s.cache with
  | some (v, ts) =>
    if _expired cfg.ttl ts now then
      (none, { s with cache := eraseKey key s.cache })
    else
      (some v, { s with cache := moveToEnd key v ts s.cache, hits := s.hits + 1 })
  | none => (none, s)

/-- The locked write-back fragment shared by `call` (source lines 86-90)
and `call_async` (lines 130-134): store (result, now) at the
most-recently-used position; if the size then exceeds maxsize, evict
exactly one entry from the least-recently-used end
(`self._cache.popitem(last=False)`). -/
def putStep {κ α : Type} [DecidableEq κ] (cfg : Config) (key : κ) (v : α)
    (now : Int) (s : CacheState κ α) : CacheState κ α :=
  { s with cache :=
      if (moveToEnd key v now s.cache).length > cfg.maxsize then
        (moveToEnd key v now s.cache).drop 1
      else
        moveToEnd key v now s.cache }

/-- Shallow embedding of `AdvancedLRUCache.call` (source lines 70-92) for
one already-derived key.  `compute` is the outcome of the single
invocation `func(*args, **kwargs)` the source performs on a miss; the
Boolean in the result records whether that invocation happened.  `t1` and
`t2` are the monotonic clock readings at the two lock acquisitions.  On a
fresh hit the function returns the stored value without invoking; on a
miss it counts the miss, then either propagates the computation's failure
without touching the store, or writes the result back (evicting if over
capacity) and returns it. -/
def call {κ α ε : Type} [DecidableEq κ] (cfg : Config) (key : κ)
    (compute : Except ε α) (t1 t2 : Int) (s : CacheState κ α) :
    Except ε α × Bool × CacheState κ α :=
  match lookupStep cfg key t1 s with
  | (some v, s1) => (.ok v, false, s1)
  | (none, s1) =>
    let s2 := { s1 with misses := s1.misses + 1 }
    match compute with
    | .error e => (.error e, true, s2)
    | .ok v => (.ok v, true, putStep cfg key v t2 s2)

/-- The `OrderedDict` representation invariant: keys are pairwise
distinct. -/
abbrev Wf {κ α : Type} (s : CacheState κ α) : Prop :=
  (s.cache.map fun e => e.1).Nodup

theorem findEntry_none_iff {κ α : Type} [DecidableEq κ] {key : κ}
    {c : List (κ × α × Int)} :
    findEntry key c = none ↔ ∀ e, e ∈ c → e.1 ≠ key := by
  unfold findEntry
  cases hf : c.find? (fun e => decide (e.1 = key)) with
  | none =>
    rw [List.find?_eq_none] at hf
    simp
    intro a b t hmem
    simpa using hf (a, b, t) hmem
  | some e =>
    have hp := List.find?_some hf
    have hm := List.mem_of_find?_eq_some hf
    simp at hp
    simp
    exact ⟨e.2.1, e.2.2, by rw [← hp]; exact hm⟩

theorem eraseKey_of_none {κ α : Type} [DecidableEq κ] {key : κ}
    {c : List (κ × α × Int)} (h : findEntry key c = none) :
    eraseKey key c = c := by
  apply List.eraseP_of_forall_not
  intro e he
  simpa using (findEntry_none_iff.mp h) e he

theorem findEntry_cons {κ α : Type} [DecidableEq κ] (key : κ)
    (e : κ × α × Int) (c : List (κ × α × Int)) :
    findEntry key (e :: c) = if e.1 = key then some e.2 else findEntry key c := by
  unfold findEntry
  by_cases h : e.1 = key
  · rw [List.find?_cons_of_pos _ (by simpa using h), if_pos h]
  · rw [List.find?_cons_of_neg _ (by simpa using h), if_neg h]

theorem eraseKey_cons_pos {κ α : Type} [DecidableEq κ] {key : κ}
    {e : κ × α × Int} (c : List (κ × α × Int)) (h : e.1 = key) :
    eraseKey key (e :: c) = c := by
  simp [eraseKey, List.eraseP_cons_of_pos, h]

theorem eraseKey_cons_neg {κ α : Type} [DecidableEq κ] {key : κ}
    {e : κ × α × Int} (c : List (κ × α × Int)) (h : ¬ e.1 = key) :
    eraseKey key (e :: c) = e :: eraseKey key c := by
  simp [eraseKey, List.eraseP_cons_of_neg, h]

theorem findEntry_eraseKey_self {κ α : Type} [DecidableEq κ] {key : κ} :
    ∀ {c : List (κ × α × Int)}, (c.map fun e => e.1).Nodup →
      findEntry key (eraseKey key c) = none := by
  intro c
  induction c with
  | nil => intro _; rfl
  | cons e c ih =>
    intro hw
    rw [List.map_cons, List.nodup_cons] at hw
    by_cases he : e.1 = key
    · rw [eraseKey_cons_pos c he, findEntry_none_iff]
      intro f hf hfk
      exact hw.1 (by rw [he, ← hfk]; exact List.mem_map_of_mem _ hf)
    · rw [eraseKey_cons_neg c he, findEntry_cons, if_neg he]
      exact ih hw.2

theorem findEntry_eraseKey_ne {κ α : Type} [DecidableEq κ] {k2 key : κ}
    (hne : k2 ≠ key) : ∀ {c : List (κ × α × Int)},
      findEntry k2 (eraseKey key c) = findEntry k2 c := by
  intro c
  induction c with
  | nil => rfl
  | cons e c ih =>
    by_cases he : e.1 = key
    · have hek2 : ¬ e.1 = k2 := fun h => hne ((h ▸ he : k2 = key))
      rw [eraseKey_cons_pos c he, findEntry_cons, if_neg hek2]
    · rw [eraseKey_cons_neg c he, findEntry_cons, findEntry_cons]
      by_cases hk2 : e.1 = k2
      · rw [if_pos hk2, if_pos hk2]
      · rw [if_neg hk2, if_neg hk2, ih]

theorem findEntry_append_key {κ α : Type} [DecidableEq κ] {key : κ}
    {v : α} {ts : Int} {l : List (κ × α × Int)}
    (h : ∀ e, e ∈ l → e.1 ≠ key) :
    findEntry key (l ++ [(key, v, ts)]) = some (v, ts) := by
  induction l with
  | nil => simp [findEntry_cons]
  | cons e l ih =>
    rw [List.cons_append, findEntry_cons, if_neg (h e (by simp))]
    exact ih (fun f hf => h f (by simp [hf]))

theorem findEntry_append_ne {κ α : Type} [DecidableEq κ] {k2 key : κ}
    {v : α} {ts : Int} {l : List (κ × α × Int)} (hne : k2 ≠ key) :
    findEntry k2 (l ++ [(key, v, ts)]) = findEntry k2 l := by
  induction l with
  | nil =>
    rw [List.nil_append, findEntry_cons, if_neg (fun h => hne (Eq.symm h))]
  | cons e l ih =>
    rw [List.cons_append, findEntry_cons, findEntry_cons]
    by_cases hk2 : e.1 = k2
    · rw [if_pos hk2, if_pos hk2]
    · rw [if_neg hk2, if_neg hk2, ih]

theorem findEntry_moveToEnd_self {κ α : Type} [DecidableEq κ] {key : κ}
    {v : α} {ts : Int} {c : List (κ × α × Int)}
    (hw : (c.map fun e => e.1).Nodup) :
    findEntry key (moveToEnd key v ts c) = some (v, ts) := by
  unfold moveToEnd
  exact findEntry_append_key (findEntry_none_iff.mp (findEntry_eraseKey_self hw))

theorem findEntry_moveToEnd_ne {κ α : Type} [DecidableEq κ] {k2 key : κ}
    {v : α} {ts : Int} {c : List (κ × α × Int)} (hne : k2 ≠ key) :
    findEntry k2 (moveToEnd key v ts c) = findEntry k2 c := by
  unfold moveToEnd
  rw [findEntry_append_ne hne, findEntry_eraseKey_ne hne]

theorem moveToEnd_perm {κ α : Type} [DecidableEq κ] {key : κ} {v : α}
    {ts : Int} : ∀ {c : List (κ × α × Int)},
      findEntry key c = some (v, ts) → (moveToEnd key v ts c).Perm c := by
  intro c
  induction c with
  | nil => intro h; simp [findEntry] at h
  | cons e c ih =>
    intro h
    rw [findEntry_cons] at h
    by_cases he : e.1 = key
    · rw [if_pos he] at h
      simp at h
      have he2 : e = (key, v, ts) := by
        obtain ⟨k, w, t⟩ := e
        simp at he h
        simp [he, h]
      unfold moveToEnd
      rw [eraseKey_cons_pos c he]
      rw [← he2]
      exact List.perm_append_singleton e c
    · rw [if_neg he] at h
      unfold moveToEnd
      rw [eraseKey_cons_neg c he]
      rw [List.cons_append]
      exact List.Perm.cons e (ih h)

theorem putStep_length {κ α : Type} [DecidableEq κ] {cfg : Config} {key : κ}
    {v : α} {now : Int} {s : CacheState κ α}
    (h : s.cache.length ≤ cfg.maxsize) :
    (putStep cfg key v now s).cache.length ≤ cfg.maxsize := by
  unfold putStep moveToEnd
  have hlen : (eraseKey key s.cache).length ≤ s.cache.length :=
    List.length_eraseP_le _
  by_cases hc : (eraseKey key s.cache ++ [(key, v, now)]).length > cfg.maxsize
  · rw [if_pos hc]
    simp at hc ⊢
    omega
  · rw [if_neg hc]
    simp at hc ⊢
    omega

theorem findEntry_putStep_self {κ α : Type} [DecidableEq κ] {cfg : Config}
    {key : κ} {v : α} {now : Int} {s : CacheState κ α} (hw : Wf s)
    (hmax : 0 < cfg.maxsize) :
    findEntry key (putStep cfg key v now s).cache = some (v, now) := by
  unfold putStep moveToEnd
  have hnone : ∀ e, e ∈ eraseKey key s.cache → e.1 ≠ key :=
    findEntry_none_iff.mp (findEntry_eraseKey_self hw)
  by_cases hc : (eraseKey key s.cache ++ [(key, v, now)]).length > cfg.maxsize
  · rw [if_pos hc]
    cases hE : eraseKey key s.cache with
    | nil =>
      rw [hE] at hc
      simp at hc
      omega
    | cons f fr =>
      exact findEntry_append_key (fun e he => hnone e (by rw [hE]; simp [he]))
  · rw [if_neg hc]
    exact findEntry_append_key hnone

/-- C1: hit/miss correctness of the sync path.  For a key not in the
store, `call` with a succeeding computation invokes it (flag `true`),
increments the miss counter (and only it), stores the result with the
write-back timestamp, and returns the result.  For a key stored and fresh
at lookup time, `call` returns the stored value with the hit counter
incremented, and does not invoke the computation (flag `false`) whatever
it would have produced. -/
theorem call_hit_miss_c1 {κ α ε : Type} [DecidableEq κ] (cfg : Config)
    (key : κ) (s : CacheState κ α) (hw : Wf s) (hmax : 0 < cfg.maxsize) :
    (∀ (v : α) (t1 t2 : Int), findEntry key s.cache = none →
      call (ε := ε) cfg key (.ok v) t1 t2 s =
        (.ok v, true, putStep cfg key v t2 { s with misses := s.misses + 1 }) ∧
      findEntry key
        (putStep cfg key v t2 { s with misses := s.misses + 1 }).cache =
        some (v, t2) ∧
      (putStep cfg key v t2 { s with misses := s.misses + 1 }).misses =
        s.misses + 1 ∧
      (putStep cfg key v t2 { s with misses := s.misses + 1 }).hits = s.hits) ∧
    (∀ (w : α) (ts : Int) (compute : Except ε α) (t1 t2 : Int),
      findEntry key s.cache = some (w, ts) → _expired cfg.ttl ts t1 = false →
      call cfg key compute t1 t2 s =
        (.ok w, false,
          { s with cache := moveToEnd key w ts s.cache,
                   hits := s.hits + 1 })) := by
  constructor
  · intro v t1 t2 hnone
    have hl : lookupStep (α := α) cfg key t1 s = (none, s) := by
      unfold lookupStep
      rw [hnone]
    refine ⟨?_, ?_, ?_, ?_⟩
    · unfold call
      rw [hl]
    · exact findEntry_putStep_self hw hmax
    · rfl
    · rfl
  · intro w ts compute t1 t2 hfind hfresh
    have hl : lookupStep (α := α) cfg key t1 s =
        (some w, { s with cache := moveToEnd key w ts s.cache,
                          hits := s.hits + 1 }) := by
      unfold lookupStep
      rw [hfind]
      simp [hfresh]
    unfold call
    rw [hl]

/-- Witness for C1: on a two-slot cache, a first call for key 0 misses,
computes 7, stores it and counts the miss; a second call for key 0 returns
the stored 7 without invoking the (different) computation and counts a
hit. -/
theorem call_hit_miss_c1_witness :
    call (κ := Nat) (α := Int) (ε := Unit) ⟨2, none⟩ 0 (.ok 7) 0 0
      ⟨[], 0, 0⟩ = (.ok 7, true, ⟨[(0, 7, 0)], 0, 1⟩) ∧
    call (κ := Nat) (α := Int) (ε := Unit) ⟨2, none⟩ 0 (.ok 99) 1 1
      ⟨[(0, 7, 0)], 0, 1⟩ = (.ok 7, false, ⟨[(0, 7, 0)], 1, 1⟩) := by
  constructor
  · exact ((call_hit_miss_c1 ⟨2, none⟩ 0 ⟨[], 0, 0⟩ (by decide) (by decide)).1
      7 0 0 (by decide)).1.trans (by decide)
  · exact ((call_hit_miss_c1 ⟨2, none⟩ 0 ⟨[(0, 7, 0)], 0, 1⟩ (by decide)
      (by decide)).2 7 0 (.ok 99) 1 1 (by decide) (by decide)).trans (by decide)

/-- C3: bounded-store capacity.  The write-back `putStep` (performed
identically by `call`, lines 86-90, and `call_async`, lines 130-134)
preserves the size bound; when it makes the size exceed maxsize — the key
is new and the store is full — exactly one entry is evicted, namely the
least-recently-used one (the list head), everything else surviving in
order with the new entry at the most-recently-used end; and a fresh hit
reorders the accessed key to the most-recently-used (last) position. -/
theorem lru_eviction_c3 {κ α : Type} [DecidableEq κ] (cfg : Config)
    (key : κ) (v : α) (now : Int) (s : CacheState κ α) :
    (s.cache.length ≤ cfg.maxsize →
      (putStep cfg key v now s).cache.length ≤ cfg.maxsize) ∧
    (findEntry key s.cache = none → s.cache.length = cfg.maxsize →
      0 < cfg.maxsize →
      (putStep cfg key v now s).cache = s.cache.tail ++ [(key, v, now)]) ∧
    (∀ (w : α) (ts : Int), findEntry key s.cache = some (w, ts) →
      _expired cfg.ttl ts now = false →
      ((lookupStep cfg key now s).2.cache).getLast? = some (key, w, ts)) := by
  refine ⟨putStep_length, ?_, ?_⟩
  · intro hnone hfull hmax
    unfold putStep
    rw [show moveToEnd key v now s.cache = s.cache ++ [(key, v, now)] from by
      unfold moveToEnd; rw [eraseKey_of_none hnone]]
    rw [if_pos (by simp [hfull])]
    cases hc : s.cache with
    | nil => rw [hc] at hfull; simp at hfull; omega
    | cons f fr => simp
  · intro w ts hfind hfresh
    have hl : lookupStep cfg key now s =
        (some w, { s with cache := moveToEnd key w ts s.cache,
                          hits := s.hits + 1 }) := by
      unfold lookupStep
      rw [hfind]
      simp [hfresh]
    rw [hl]
    unfold moveToEnd
    simp

/-- Witness for C3: with maxsize 2 and a full store, writing a new key 2
evicts exactly the LRU entry (key 0) and appends the new entry at the MRU
end; the size stays at 2; and a fresh hit on key 0 moves it to the MRU
position. -/
theorem lru_eviction_c3_witness :
    (putStep (κ := Nat) (α := Int) ⟨2, none⟩ 2 30 5
      ⟨[(0, 10, 0), (1, 20, 1)], 0, 0⟩).cache = [(1, 20, 1), (2, 30, 5)] ∧
    (putStep (κ := Nat) (α := Int) ⟨2, none⟩ 2 30 5
      ⟨[(0, 10, 0), (1, 20, 1)], 0, 0⟩).cache.length ≤ 2 ∧
    ((lookupStep (κ := Nat) (α := Int) ⟨2, none⟩ 0 3
      ⟨[(0, 10, 0), (1, 20, 1)], 0, 0⟩).2.cache).getLast? = some (0, 10, 0) := by
  refine ⟨?_, ?_, ?_⟩
  · exact ((lru_eviction_c3 ⟨2, none⟩ 2 30 5
      ⟨[(0, 10, 0), (1, 20, 1)], 0, 0⟩).2.1 (by decide) (by decide)
      (by decide)).trans (by decide)
  · exact (lru_eviction_c3 ⟨2, none⟩ 2 30 5
      ⟨[(0, 10, 0), (1, 20, 1)], 0, 0⟩).1 (by decide)
  · exact (lru_eviction_c3 ⟨2, none⟩ 0 30 3
      ⟨[(0, 10, 0), (1, 20, 1)], 0, 0⟩).2.2 10 0 (by decide) (by decide)

/-- C4: lazy TTL expiry.  For a stored entry (w, ts): with a TTL T
configured and now - ts ≥ T, the lookup treats the entry as absent — it is
deleted and the lookup misses, so `call` recomputes and write-backs; with
now - ts < T the lookup is a hit; with no TTL configured the entry never
expires, whatever `now` is. -/
theorem ttl_expiry_c4 {κ α : Type} [DecidableEq κ] (cfg : Config) (key : κ)
    (s : CacheState κ α) (w : α) (ts now : Int) (hw : Wf s)
    (hfind : findEntry key s.cache = some (w, ts)) :
    (∀ T, cfg.ttl = some T → now - ts ≥ T →
      lookupStep cfg key now s =
        (none, { s with cache := eraseKey key s.cache }) ∧
      findEntry key (eraseKey key s.cache) = (none : Option (α × Int)) ∧
      ∀ (v : α) (t2 : Int),
        call (ε := Unit) cfg key (.ok v) now t2 s =
          (.ok v, true, putStep cfg key v t2
            { s with cache := eraseKey key s.cache,
                     misses := s.misses + 1 })) ∧
    (∀ T, cfg.ttl = some T → now - ts < T →
      lookupStep cfg key now s =
        (some w, { s with cache := moveToEnd key w ts s.cache,
                          hits := s.hits + 1 })) ∧
    (cfg.ttl = none →
      lookupStep cfg key now s =
        (some w, { s with cache := moveToEnd key w ts s.cache,
                          hits := s.hits + 1 })) := by
  refine ⟨?_, ?_, ?_⟩
  · intro T hT hexp
    have hl : lookupStep cfg key now s =
        (none, { s with cache := eraseKey key s.cache }) := by
      unfold lookupStep
      rw [hfind]
      have hcond : _expired cfg.ttl ts now = true := by
        simp [_expired, hT]
        omega
      simp [hcond]
    refine ⟨hl, findEntry_eraseKey_self hw, ?_⟩
    intro v t2
    unfold call
    rw [hl]
  · intro T hT hfresh
    unfold lookupStep
    rw [hfind]
    have hcond : _expired cfg.ttl ts now = false := by
      simp [_expired, hT]
      omega
    simp [hcond]
  · intro hT
    unfold lookupStep
    rw [hfind]
    have hcond : _expired cfg.ttl ts now = false := by
      simp [_expired, hT]
    simp [hcond]

/-- Witness for C4: with TTL 10 and an entry stamped 0, a lookup at time
10 expires and removes it, a lookup at time 5 hits, and with no TTL a
lookup at time 1000 still hits. -/
theorem ttl_expiry_c4_witness :
    lookupStep (κ := Nat) (α := Int) ⟨2, some 10⟩ 0 10 ⟨[(0, 7, 0)], 0, 0⟩ =
      (none, ⟨[], 0, 0⟩) ∧
    lookupStep (κ := Nat) (α := Int) ⟨2, some 10⟩ 0 5 ⟨[(0, 7, 0)], 0, 0⟩ =
      (some 7, ⟨[(0, 7, 0)], 1, 0⟩) ∧
    lookupStep (κ := Nat) (α := Int) ⟨2, none⟩ 0 1000 ⟨[(0, 7, 0)], 0, 0⟩ =
      (some 7, ⟨[(0, 7, 0)], 1, 0⟩) := by
  refine ⟨?_, ?_, ?_⟩
  · exact ((ttl_expiry_c4 ⟨2, some 10⟩ 0 ⟨[(0, 7, 0)], 0, 0⟩ 7 0 10
      (by decide) (by decide)).1 10 rfl (by decide)).1.trans (by decide)
  · exact ((ttl_expiry_c4 ⟨2, some 10⟩ 0 ⟨[(0, 7, 0)], 0, 0⟩ 7 0 5
      (by decide) (by decide)).2.1 10 rfl (by decide)).trans (by decide)
  · exact ((ttl_expiry_c4 ⟨2, none⟩ 0 ⟨[(0, 7, 0)], 0, 0⟩ 7 0 1000
      (by decide) (by decide)).2.2 rfl).trans (by decide)

/-- C8: sync-path failure atomicity.  When the lookup misses and the
computation fails, `call` propagates that exact failure, the computation
was invoked, the hit counter is unchanged, the miss counter grows by
exactly the one miss counted before the invocation, no entry is stored
under the key, and no other key's entry changes. -/
theorem call_failure_atomic_c8 {κ α ε : Type} [DecidableEq κ] (cfg : Config)
    (key : κ) (e : ε) (t1 t2 : Int) (s : CacheState κ α) (hw : Wf s)
    (hmiss : (lookupStep cfg key t1 s).1 = none) :
    (call cfg key (.error e) t1 t2 s).1 = .error e ∧
    (call cfg key (.error e) t1 t2 s).2.1 = true ∧
    (call cfg key (.error e) t1 t2 s).2.2.hits = s.hits ∧
    (call cfg key (.error e) t1 t2 s).2.2.misses = s.misses + 1 ∧
    findEntry key (call cfg key (.error e) t1 t2 s).2.2.cache = none ∧
    (∀ k2, k2 ≠ key →
      findEntry k2 (call cfg key (.error e) t1 t2 s).2.2.cache =
        findEntry k2 s.cache) := by
  cases hfind : findEntry key s.cache with
  | none =>
    have hl : lookupStep (α := α) cfg key t1 s = (none, s) := by
      unfold lookupStep
      rw [hfind]
    have hc : call cfg key (.error e) t1 t2 s =
        (.error e, true, { s with misses := s.misses + 1 }) := by
      unfold call
      rw [hl]
    rw [hc]
    exact ⟨rfl, rfl, rfl, rfl, hfind, fun k2 _ => rfl⟩
  | some enr =>
    obtain ⟨w, ts⟩ := enr
    cases hexp : _expired cfg.ttl ts t1 with
    | false =>
      have hl : lookupStep (α := α) cfg key t1 s =
          (some w, { s with cache := moveToEnd key w ts s.cache,
                            hits := s.hits + 1 }) := by
        unfold lookupStep
        rw [hfind]
        simp [hexp]
      rw [hl] at hmiss
      simp at hmiss
    | true =>
      have hl : lookupStep (α := α) cfg key t1 s =
          (none, { s with cache := eraseKey key s.cache }) := by
        unfold lookupStep
        rw [hfind]
        simp [hexp]
      have hc : call cfg key (.error e) t1 t2 s =
          (.error e, true,
            { s with cache := eraseKey key s.cache,
                     misses := s.misses + 1 }) := by
        unfold call
        rw [hl]
      rw [hc]
      exact ⟨rfl, rfl, rfl, rfl, findEntry_eraseKey_self hw,
        fun k2 hk2 => findEntry_eraseKey_ne hk2⟩

/-- Witness for C8: a failing computation on a miss propagates the error,
counts one miss, leaves hits and the store untouched. -/
theorem call_failure_atomic_c8_witness :
    (call (κ := Nat) (α := Int) (ε := Unit) ⟨2, none⟩ 0 (.error ()) 0 0
      ⟨[], 3, 4⟩).1 = .error () ∧
    findEntry 0 (call (κ := Nat) (α := Int) (ε := Unit) ⟨2, none⟩ 0
      (.error ()) 0 0 ⟨[], 3, 4⟩).2.2.cache = none ∧
    (call (κ := Nat) (α := Int) (ε := Unit) ⟨2, none⟩ 0 (.error ()) 0 0
      ⟨[], 3, 4⟩).2.2.misses = 5 ∧
    (call (κ := Nat) (α := Int) (ε := Unit) ⟨2, none⟩ 0 (.error ()) 0 0
      ⟨[], 3, 4⟩).2.2.hits = 3 := by
  have h := call_failure_atomic_c8 (⟨2, none⟩ : Config) 0 () 0 0
    (⟨[], 3, 4⟩ : CacheState Nat Int) (by decide) (by decide)
  exact ⟨h.1, h.2.2.2.2.1, h.2.2.2.1.trans (by decide), h.2.2.1⟩

/-- C9: a fresh hit does not mutate the cache entry.  The hit path of the
lookup fragment (shared verbatim by `call`, lines 74-81, and `call_async`,
lines 107-114) returns the stored value; the entry's value and timestamp
are unchanged — it is found afterwards with exactly the same (value, ts) —
the store is only permuted (the key moved to the most-recently-used, last
position), and every other key's entry is untouched.  In particular TTL
age keeps being measured from the last write's timestamp, not from
reads. -/
theorem hit_frame_c9 {κ α : Type} [DecidableEq κ] (cfg : Config) (key : κ)
    (s : CacheState κ α) (w : α) (ts now : Int) (hw : Wf s)
    (hfind : findEntry key s.cache = some (w, ts))
    (hfresh : _expired cfg.ttl ts now = false) :
    lookupStep cfg key now s =
      (some w, { s with cache := moveToEnd key w ts s.cache,
                        hits := s.hits + 1 }) ∧
    findEntry key (moveToEnd key w ts s.cache) = some (w, ts) ∧
    (moveToEnd key w ts s.cache).Perm s.cache ∧
    (∀ k2, k2 ≠ key →
      findEntry k2 (moveToEnd key w ts s.cache) = findEntry k2 s.cache) ∧
    (moveToEnd key w ts s.cache).getLast? = some (key, w, ts) := by
  refine ⟨?_, findEntry_moveToEnd_self hw, moveToEnd_perm hfind,
    fun k2 hk2 => findEntry_moveToEnd_ne hk2, ?_⟩
  · unfold lookupStep
    rw [hfind]
    simp [hfresh]
  · unfold moveToEnd
    simp

/-- Witness for C9: a hit on key 0 moves it last but keeps its value and
original timestamp, and leaves key 1's entry unchanged. -/
theorem hit_frame_c9_witness :
    lookupStep (κ := Nat) (α := Int) ⟨128, some 50⟩ 0 10
      ⟨[(0, 7, 2), (1, 8, 3)], 0, 0⟩ =
      (some 7, ⟨[(1, 8, 3), (0, 7, 2)], 1, 0⟩) ∧
    findEntry 0 (moveToEnd (α := Int) 0 7 2 [(0, 7, 2), (1, 8, 3)]) =
      some (7, 2) ∧
    findEntry 1 (moveToEnd (α := Int) 0 7 2 [(0, 7, 2), (1, 8, 3)]) =
      some (8, 3) := by
  have h := hit_frame_c9 (⟨128, some 50⟩ : Config) 0
    (⟨[(0, 7, 2), (1, 8, 3)], 0, 0⟩ : CacheState Nat Int) 7 2 10
    (by decide) (by decide) (by decide)
  exact ⟨h.1.trans (by decide), h.2.1, (h.2.2.2.1 1 (by decide)).trans
    (by decide)⟩

/-- Status of the shared `asyncio.Future` of one flight (source line 120):
pending until `set_result` is called on it. -/
inductive FutSt : Type where
  | pending
  | resolved (v : Int)
  deriving DecidableEq

/-- Program counter of one `call_async` invocation in the cooperative
small-step model.  `start`: about to acquire the async lock and run the
first locked block (source lines 106-121).  `computing`: lock released,
`await func(*args, **kwargs)` in progress (line 124).  `commitWait`: the
computation finished; the task is trying to reacquire the lock for the
write-back block (line 130).  `futWait`: the task found the key in
`self._inflight` and is awaiting the shared future at line 117 — an await
that sits INSIDE the `async with self._async_lock:` block, so the task
still holds the async lock while suspended.  `finished v`: returned v. -/
inductive APc : Type where
  | start
  | computing
  | commitWait
  | futWait
  | finished (v : Int)
  deriving DecidableEq

/-- Global state of two concurrent `call_async` invocations with identical
arguments on one engine: who holds `self._async_lock` (None when free),
the shared store and counters, whether the key is in `self._inflight`, the
state of the flight's single shared future, how many times `func` started
executing, and each task's program counter. -/
structure AState : Type where
  lockBy : Option Bool
  store : CacheState Nat Int
  inflightReg : Bool
  fut : FutSt
  invocations : Nat
  pc0 : APc
  pc1 : APc
  deriving DecidableEq

/-- Engine configuration of the scenario: the constructor defaults,
`maxsize=128`, `ttl=None`.  With no TTL the clock is irrelevant, so the
model passes 0 for every `time.monotonic()` reading. -/
def acfg : Config := ⟨128, none⟩

/-- The one cache key both tasks derive (identical arguments). -/
def akey : Nat := 0

/-- The value task i's invocation of `func` would produce. -/
def aval (i : Bool) : Int := if i then 11 else 7

/-- Program counter of task i. -/
def taskPc (s : AState) (i : Bool) : APc :=
  if i then s.pc1 else s.pc0

/-- Replace the program counter of task i. -/
def setPc (s : AState) (i : Bool) (p : APc) : AState :=
  if i then { s with pc1 := p } else { s with pc0 := p }

/-- Whether the cooperative scheduler can run task i now: a task entering
a locked block needs the lock free; a computing task can always complete;
a task awaiting the in-flight future needs that future resolved; a
finished task has no step. -/
def canStep (s : AState) (i : Bool) : Bool :=
  match taskPc s i with
  | .start => decide (s.lockBy = none)
  | .computing => true
  | .commitWait => decide (s.lockBy = none)
  | .futWait =>
    match s.fut with
    | .resolved _ => true
    | .pending => false
  | .finished _ => false

/-- One cooperative step of task i, mirroring `call_async` (source lines
98-137).  From `start` (lines 106-121): acquire the lock and run the first
block — a fresh hit returns immediately (lines 108-113, lock released at
block exit); if the key is in `self._inflight`, the task moves to
`futWait`, the lock STAYING HELD because the `await` at line 117 is inside
the `async with` block; otherwise the task counts the miss, registers a
pending future, releases the lock and starts computing (lines 119-124).
From `computing`: `func` completes with the task's value.  From
`commitWait` (lines 130-136): reacquire the lock, write the result back
(with the same eviction fragment as the sync path), pop the registry
entry, resolve the shared future, release the lock and return.  From
`futWait`: if the future is resolved the waiter returns its value,
releasing the lock at block exit.  A task that cannot step leaves the
state unchanged. -/
def stepA (s : AState) (i : Bool) : AState :=
  if canStep s i then
    match taskPc s i with
    | .start =>
      match lookupStep acfg akey 0 s.store with
      | (some v, st) => setPc { s with store := st } i (.finished v)
      | (none, st) =>
        if s.inflightReg then
          setPc { s with store := st, lockBy := some i } i .futWait
        else
          setPc { s with store := { st with misses := st.misses + 1 },
                         inflightReg := true,
                         fut := .pending,
                         invocations := s.invocations + 1 } i .computing
    | .computing => setPc s i .commitWait
    | .commitWait =>
      setPc { s with store := putStep acfg akey (aval i) 0 s.store,
                     inflightReg := false,
                     fut := .resolved (aval i) } i (.finished (aval i))
    | .futWait =>
      match s.fut with
      | .resolved v => setPc { s with lockBy := none } i (.finished v)
      | .pending => s
    | .finished _ => s
  else s

/-- Run a schedule (a list of task choices) from a state. -/
def runA (s : AState) : List Bool → AState
  | [] => s
  | i :: rest => runA (stepA s i) rest

/-- Initial state: empty store, lock free, no flight, both tasks about to
call. -/
def aInit : AState := ⟨none, ⟨[], 0, 0⟩, false, .pending, 0, .start, .start⟩

/-- C2 (code bug): the async single-flight path deadlocks as soon as a
second caller joins a flight in progress.  Under the canonical
interleaving — task 0 misses, claims the flight and starts computing; task
1 acquires the lock, sees the in-flight entry and awaits the shared future
at source line 117 while still holding the async lock; task 0's
computation completes — the system is stuck forever: task 0 needs the lock
(held by the suspended task 1) to resolve the future (lines 130-135), and
task 1 waits on precisely that future.  The underlying callable was
invoked exactly once, no caller ever observes any outcome, and every
further schedule leaves the state unchanged with both tasks unfinished. -/
theorem call_async_deadlock_c2 :
    (runA aInit [false, true, false]).invocations = 1 ∧
    (runA aInit [false, true, false]).pc0 = .commitWait ∧
    (runA aInit [false, true, false]).pc1 = .futWait ∧
    (runA aInit [false, true, false]).lockBy = some true ∧
    canStep (runA aInit [false, true, false]) false = false ∧
    canStep (runA aInit [false, true, false]) true = false ∧
    ∀ sched : List Bool, runA (runA aInit [false, true, false]) sched =
      runA aInit [false, true, false] := by
  refine ⟨by decide, by decide, by decide, by decide, by decide, by decide, ?_⟩
  intro sched
  induction sched with
  | nil => rfl
  | cons i rest ih =>
    have hstep : stepA (runA aInit [false, true, false]) i =
        runA aInit [false, true, false] := by
      cases i <;> decide
    rw [show runA (runA aInit [false, true, false]) (i :: rest) =
      runA (stepA (runA aInit [false, true, false]) i) rest from rfl, hstep]
    exact ih
